import Mathlib

/-!
Verification of the triplet-loss mining and loss-computation engine of
`pyannote/audio/embedding/approaches/triplet_loss.py`.

Labels are modelled as natural numbers (the code only compares them for
equality).  Distances are modelled as rationals: the code manipulates
IEEE doubles, but every claim below is about index selection, comparison
and exact piecewise-linear arithmetic, which the rational model captures
faithfully.  A Python function that can raise is modelled as an
`Option`-valued function, `none` standing for the raised exception.
-/

namespace PyannoteTriplet

/-- A triplet of batch indices `(anchor, positive, negative)`. -/
abbrev Triplet : Type := ℕ × ℕ × ℕ

/-- Modelled from the spec: `to_condensed` of the external
`pyannote.core.utils.distance` dependency (imported at the top of
`triplet_loss.py`), the Index Mapper of spec section 4.2: for `i < j` the
condensed offset is `n*i - i*(i+1)/2 + j - i - 1`, and the arguments are
swapped first when given in the other order (the matrix is symmetric). -/
def to_condensed (n i j : ℕ) : ℕ :=
  let a := min i j
  let b := max i j
  n * a + b - a * (a + 1) / 2 - a - 1

/-- `squareform(distances)[i, j]` of `scipy.spatial.distance`: expand the
condensed distance vector to the symmetric square matrix with zero
diagonal, looked up functionally. -/
def squareform (n : ℕ) (distances : List ℚ) (i j : ℕ) : ℚ :=
  if i = j then 0 else distances.getD (to_condensed n i j) 0

/-- Modelled from the spec: the base class `EmbeddingApproach.max_distance`
(file `pyannote/audio/embedding/approaches/base.py`, which is not part of
this tree) maps each valid metric string to the metric's fixed maximum
distance `D` and fails on any other string (spec section 4.1: an
unrecognized metric signals `InvalidMetric`; section 6: an invalid metric
must fail fast at construction).  `D = 2` for cosine (spec section 4.1),
`D = 2` for euclidean (docstring of `TripletLoss`, line 86), and for
angular the spec range is `[0, pi]`; `pi` is modelled by the exact value
of the IEEE double `np.pi`. -/
def max_distance (metric : String) : Option ℚ :=
  if metric = "euclidean" then some 2
  else if metric = "cosine" then some 2
  else if metric = "angular" then some (884279719003555 / 281474976710656)
  else none

/-- The configuration state a successfully constructed `TripletLoss`
object carries.  The remaining constructor parameters (`duration`,
`per_label`, `per_fold`, `per_epoch`, `parallel`, ...) are stored
verbatim by `__init__` and play no role in the verified claims, so they
are omitted here. -/
structure TripletLoss where
  metric : String
  margin : ℚ
  margin_ : ℚ
  clamp : String
  sampling : String
  deriving DecidableEq

/-- `TripletLoss.__init__` (lines 90-121): stores `metric` and `margin`,
computes `margin_ = margin * max_distance` (which fails on an invalid
metric), then checks `clamp` against `positive/sigmoid/softmargin` and
`sampling` against `all/hard/negative/easy`, raising `ValueError` on
failure.  A raise is modelled by `none`. -/
def TripletLoss.init (metric : String) (margin : ℚ) (clamp : String)
    (sampling : String) : Option TripletLoss :=
  (max_distance metric).bind fun D =>
    if clamp = "positive" ∨ clamp = "sigmoid" ∨ clamp = "softmargin" then
      if sampling = "all" ∨ sampling = "hard" ∨ sampling = "negative" ∨
          sampling = "easy" then
        some ⟨metric, margin, margin * D, clamp, sampling⟩
      else none
    else none

/-- `candidates[np.argmax(f[candidates])]` for a candidate index list:
the first element of `l` maximizing `f` (`np.argmax` returns the first
occurrence of the maximum), `none` when `l` is empty (`np.argmax` raises
on an empty array). -/
def argmaxSel (f : ℕ → ℚ) : List ℕ → Option ℕ
  | [] => none
  | x :: xs =>
    match argmaxSel f xs with
    | none => some x
    | some b => if f b > f x then some b else some x

/-- `candidates[np.argmin(f[candidates])]`: the first element of `l`
minimizing `f`, `none` when `l` is empty (`np.argmin` raises). -/
def argminSel (f : ℕ → ℚ) : List ℕ → Option ℕ
  | [] => none
  | x :: xs =>
    match argminSel f xs with
    | none => some x
    | some b => if f b < f x then some b else some x

/-- Run a fallible per-element computation appending one block of
triplets per element, propagating a raise (`none`) from any element, as
a Python `for` loop over anchors does. -/
def optMap (f : ℕ → Option (List Triplet)) : List ℕ → Option (List Triplet)
  | [] => some []
  | x :: xs =>
    match f x, optMap f xs with
    | some t, some ts => some (t ++ ts)
    | _, _ => none

/-- Run a fallible per-element computation appending exactly one triplet
per element, propagating a raise (`none`) from any element. -/
def optMapT (f : ℕ → Option Triplet) : List ℕ → Option (List Triplet)
  | [] => some []
  | x :: xs =>
    match f x, optMapT f xs with
    | some t, some ts => some (t :: ts)
    | _, _ => none

/-- `TripletLoss.batch_all` (lines 233-267): three nested loops over the
batch; skip when `anchor == positive` or labels differ, skip negatives
with the anchor's label, emit every remaining combination in
anchor-major, then positive, then negative order.  The `distances`
argument is accepted and ignored, as in the source. -/
def batch_all (y : List ℕ) (distances : List ℚ) : List Triplet :=
  let _ := distances
  (List.range y.length).flatMap fun anchor =>
    (List.range y.length).flatMap fun positive =>
      if anchor = positive ∨ y.getD anchor 0 ≠ y.getD positive 0 then []
      else
        (List.range y.length).flatMap fun negative =>
          if y.getD negative 0 = y.getD anchor 0 then []
          else [(anchor, positive, negative)]

/-- `TripletLoss.batch_easy` (lines 124-152): like `batch_all` but a
negative is kept only when `d(anchor, positive) <= d(anchor, negative)`
(the source skips when `d > distances[anchor, negative]`). -/
def batch_easy (y : List ℕ) (distances : List ℚ) : List Triplet :=
  let dsq := squareform y.length distances
  (List.range y.length).flatMap fun anchor =>
    (List.range y.length).flatMap fun positive =>
      if anchor = positive ∨ y.getD anchor 0 ≠ y.getD positive 0 then []
      else
        (List.range y.length).flatMap fun negative =>
          if y.getD negative 0 = y.getD anchor 0 then []
          else if dsq anchor positive > dsq anchor negative then []
          else [(anchor, positive, negative)]

/-- Line 181-182 of `batch_hard`: `pos = np.where(y == y_anchor)[0]`
followed by `pos = [p for p in pos if p != anchor]`, the hardest-positive
candidate list. -/
def pos_candidates (y : List ℕ) (anchor : ℕ) : List ℕ :=
  ((List.range y.length).filter
      (fun p => decide (y.getD p 0 = y.getD anchor 0))).filter
    (fun p => decide (p ≠ anchor))

/-- Line 186 of `batch_hard` (and line 220 of `batch_negative`):
`neg = np.where(y != y_anchor)[0]`, the hardest-negative candidate
list. -/
def neg_candidates (y : List ℕ) (anchor : ℕ) : List ℕ :=
  (List.range y.length).filter
    (fun q => decide (y.getD q 0 ≠ y.getD anchor 0))

/-- The body of the anchor loop of `batch_hard` (lines 176-191): pick
the hardest positive `pos[np.argmax(d[pos])]` and the hardest negative
`neg[np.argmin(d[neg])]`; `np.argmax` / `np.argmin` raise (`none`) when
their candidate list is empty. -/
def hard_anchor (y : List ℕ) (distances : List ℚ) (anchor : ℕ) :
    Option Triplet :=
  let dsq := squareform y.length distances
  match argmaxSel (dsq anchor) (pos_candidates y anchor),
      argminSel (dsq anchor) (neg_candidates y anchor) with
  | some positive, some negative => some (anchor, positive, negative)
  | _, _ => none

/-- `TripletLoss.batch_hard` (lines 155-193): run `hard_anchor` over
every anchor, one triplet per anchor. -/
def batch_hard (y : List ℕ) (distances : List ℚ) : Option (List Triplet) :=
  optMapT (hard_anchor y distances) (List.range y.length)

/-- The body of the anchor loop of `batch_negative` (lines 216-229):
compute the hardest negative `neg[np.argmin(d[neg])]` once, then emit
one triplet per same-label positive other than the anchor itself. -/
def negative_anchor (y : List ℕ) (distances : List ℚ) (anchor : ℕ) :
    Option (List Triplet) :=
  let dsq := squareform y.length distances
  match argminSel (dsq anchor) (neg_candidates y anchor) with
  | none => none
  | some negative =>
    some (((List.range y.length).filter
        (fun p => decide (y.getD p 0 = y.getD anchor 0))).flatMap
      (fun positive =>
        if positive = anchor then [] else [(anchor, positive, negative)]))

/-- `TripletLoss.batch_negative` (lines 195-231): run `negative_anchor`
over every anchor. -/
def batch_negative (y : List ℕ) (distances : List ℚ) : Option (List Triplet) :=
  optMap (negative_anchor y distances) (List.range y.length)

/-- Line 289: `n = int(.5 * (1 + np.sqrt(1 + 8 * len(distances))))`, the
batch size reconstructed from the length of the condensed distance
vector.  When `1 + 8*m` is the perfect square `(2n-1)^2` (and is at most
`2^53`, far beyond any realistic batch), the correctly rounded IEEE
double square root is exactly the integer `2n-1`, so the exact integer
square root is a faithful model; `int(...)` truncates towards zero,
which on non-negative values is floor division. -/
def estimate_n (m : ℕ) : ℕ :=
  (1 + Nat.sqrt (1 + 8 * m)) / 2

/-- Line 302: `torch.clamp(delta + self.margin_, min=0)` for a single
entry. -/
def clamp_positive (margin_ delta : ℚ) : ℚ :=
  max (delta + margin_) 0

/-- `TripletLoss.triplet_loss` (lines 269-316): reconstruct `n` from the
condensed vector length, map `(anchor, positive)` and `(anchor,
negative)` index pairs to condensed offsets, take
`delta = distances[pos] - distances[neg]`, and clamp.  All torch
operations involved are elementwise over the parallel index lists.  The
`softmargin` transform `log1p(exp(delta))` and the `sigmoid` transform
`torch.sigmoid(.)` are transcendental and have no rational values, so
they are passed in as abstract functions `softmargin_fn` and
`sigmoid_fn`; the claims verified here never evaluate them.  A `clamp`
string other than the three valid ones leaves the Python local `loss`
unbound (`NameError`), modelled by the empty list. -/
def triplet_loss (clamp : String) (margin_ : ℚ)
    (softmargin_fn sigmoid_fn : ℚ → ℚ) (distances : List ℚ)
    (anchors positives negatives : List ℕ) : List ℚ :=
  let n := estimate_n distances.length
  let pos := List.zipWith (fun a p => to_condensed n a p) anchors positives
  let neg := List.zipWith (fun a q => to_condensed n a q) anchors negatives
  let delta := List.zipWith
    (fun i j => distances.getD i 0 - distances.getD j 0) pos neg
  if clamp = "positive" then delta.map (fun dl => clamp_positive margin_ dl)
  else if clamp = "softmargin" then delta.map softmargin_fn
  else if clamp = "sigmoid" then delta.map (fun dl => sigmoid_fn (10 * (dl + margin_)))
  else []

/-- The loss `triplet_loss` assigns to one triplet in isolation: the
delta of its own condensed-offset distances, passed through the
configured clamp. -/
def per_triplet_loss (clamp : String) (margin_ : ℚ)
    (softmargin_fn sigmoid_fn : ℚ → ℚ) (distances : List ℚ)
    (t : Triplet) : ℚ :=
  let n := estimate_n distances.length
  let delta := distances.getD (to_condensed n t.1 t.2.1) 0 -
    distances.getD (to_condensed n t.1 t.2.2) 0
  if clamp = "positive" then clamp_positive margin_ delta
  else if clamp = "softmargin" then softmargin_fn delta
  else if clamp = "sigmoid" then sigmoid_fn (10 * (delta + margin_))
  else 0

/-- Line 362: `getattr(self, 'batch_{0}'.format(self.sampling))`, the
dynamic dispatch on the sampling policy name.  `__init__` guarantees the
name is one of the four policies; any other string would make `getattr`
raise, modelled by `none`. -/
def sample (sampling : String) (y : List ℕ) (distances : List ℚ) :
    Option (List Triplet) :=
  if sampling = "all" then some (batch_all y distances)
  else if sampling = "easy" then some (batch_easy y distances)
  else if sampling = "hard" then batch_hard y distances
  else if sampling = "negative" then batch_negative y distances
  else none

/-- `TripletLoss.batch_loss` (lines 341-371) from the point where the
labels `batch['y']` and the condensed pairwise distances are in hand
(`self.forward` and `self.pdist`, which produce them, live in the base
class outside this tree and are the spec's external collaborators):
sample triplets with the configured policy, compute the per-triplet
losses, and reduce with `torch.mean`, modelled as sum divided by length.
`torch.mean` of an empty tensor is `NaN`, which has no rational
counterpart; the claims only speak about batches yielding at least one
triplet. -/
def batch_loss (self : TripletLoss) (softmargin_fn sigmoid_fn : ℚ → ℚ)
    (y : List ℕ) (distances : List ℚ) : Option ℚ :=
  (sample self.sampling y distances).map fun ts =>
    let losses := triplet_loss self.clamp self.margin_ softmargin_fn
      sigmoid_fn distances (ts.map (fun t => t.1)) (ts.map (fun t => t.2.1))
      (ts.map (fun t => t.2.2))
    losses.sum / (losses.length : ℚ)

/-- The `all` policy as the spec's table words it: for every anchor,
every other index with the same label as positive, crossed with every
index with a different label as negative, in anchor-major, then
positive, then negative enumeration order. -/
def batch_all_spec (y : List ℕ) : List Triplet :=
  (List.range y.length).flatMap fun anchor =>
    ((List.range y.length).filter (fun positive =>
        decide (y.getD anchor 0 = y.getD positive 0 ∧ anchor ≠ positive))).flatMap
      fun positive =>
        ((List.range y.length).filter (fun negative =>
            decide (y.getD negative 0 ≠ y.getD anchor 0))).map
          fun negative => (anchor, positive, negative)

/-- The `(anchor, positive)` pairs the spec's table prescribes for the
`negative` policy: every anchor crossed with every same-label index
other than the anchor itself, in enumeration order. -/
def anchorPositivePairs (y : List ℕ) : List (ℕ × ℕ) :=
  (List.range y.length).flatMap fun anchor =>
    ((List.range y.length).filter (fun positive =>
        decide (y.getD positive 0 = y.getD anchor 0 ∧ positive ≠ anchor))).map
      fun positive => (anchor, positive)

/-- `p` is the hardest positive for anchor `a`: a same-label index other
than `a` at maximum distance from `a`, and the first such index in
enumeration order among the ties. -/
def hardestPositive (y : List ℕ) (distances : List ℚ) (a p : ℕ) : Prop :=
  p < y.length ∧ p ≠ a ∧ y.getD p 0 = y.getD a 0 ∧
  (∀ q, q < y.length → q ≠ a → y.getD q 0 = y.getD a 0 →
    squareform y.length distances a q ≤ squareform y.length distances a p) ∧
  (∀ q, q < y.length → q ≠ a → y.getD q 0 = y.getD a 0 →
    squareform y.length distances a q = squareform y.length distances a p →
    p ≤ q)

/-- `q` is the hardest negative for anchor `a`: a different-label index
at minimum distance from `a`, and the first such index in enumeration
order among the ties. -/
def hardestNegative (y : List ℕ) (distances : List ℚ) (a q : ℕ) : Prop :=
  q < y.length ∧ y.getD q 0 ≠ y.getD a 0 ∧
  (∀ r, r < y.length → y.getD r 0 ≠ y.getD a 0 →
    squareform y.length distances a q ≤ squareform y.length distances a r) ∧
  (∀ r, r < y.length → y.getD r 0 ≠ y.getD a 0 →
    squareform y.length distances a r = squareform y.length distances a q →
    q ≤ r)

/-- The spec's concrete scenario (section 8.4): labels `[A, A, B, B]`. -/
def y_scenario : List ℕ := [0, 0, 1, 1]

/-- The spec's concrete scenario: condensed distances for the pairs
`(0,1), (0,2), (0,3), (1,2), (1,3), (2,3)`. -/
def d_scenario : List ℚ := [1/10, 9/10, 7/10, 4/5, 3/5, 1/5]

section SelectorLemmas

theorem argmaxSel_eq_none {f : ℕ → ℚ} {l : List ℕ} :
    argmaxSel f l = none ↔ l = [] := by
  cases l with
  | nil => simp [argmaxSel]
  | cons x xs =>
    cases hxs : argmaxSel f xs with
    | none => rw [argmaxSel, hxs]; simp
    | some b =>
      rw [argmaxSel, hxs]
      by_cases hgt : f x < f b <;> simp [hgt]

theorem argminSel_eq_none {f : ℕ → ℚ} {l : List ℕ} :
    argminSel f l = none ↔ l = [] := by
  cases l with
  | nil => simp [argminSel]
  | cons x xs =>
    cases hxs : argminSel f xs with
    | none => rw [argminSel, hxs]; simp
    | some b =>
      rw [argminSel, hxs]
      by_cases hlt : f b < f x <;> simp [hlt]

theorem argmaxSel_mem {f : ℕ → ℚ} {l : List ℕ} {b : ℕ}
    (h : argmaxSel f l = some b) : b ∈ l := by
  induction l with
  | nil => simp [argmaxSel] at h
  | cons x xs ih =>
    cases hxs : argmaxSel f xs with
    | none =>
      rw [argmaxSel, hxs] at h
      simp at h
      simp [h]
    | some c =>
      rw [argmaxSel, hxs] at h
      simp only [gt_iff_lt] at h
      by_cases hgt : f x < f c
      · rw [if_pos hgt] at h
        simp at h
        subst h
        exact List.mem_cons_of_mem x (ih hxs)
      · rw [if_neg hgt] at h
        simp at h
        simp [h]

theorem argminSel_mem {f : ℕ → ℚ} {l : List ℕ} {b : ℕ}
    (h : argminSel f l = some b) : b ∈ l := by
  induction l with
  | nil => simp [argminSel] at h
  | cons x xs ih =>
    cases hxs : argminSel f xs with
    | none =>
      rw [argminSel, hxs] at h
      simp at h
      simp [h]
    | some c =>
      rw [argminSel, hxs] at h
      by_cases hlt : f c < f x
      · simp [hlt] at h
        subst h
        exact List.mem_cons_of_mem x (ih hxs)
      · simp [hlt] at h
        simp [h]

theorem argmaxSel_le {f : ℕ → ℚ} {l : List ℕ} {b : ℕ}
    (h : argmaxSel f l = some b) : ∀ x ∈ l, f x ≤ f b := by
  induction l generalizing b with
  | nil => simp [argmaxSel] at h
  | cons x xs ih =>
    cases hxs : argmaxSel f xs with
    | none =>
      have hnil : xs = [] := argmaxSel_eq_none.mp hxs
      subst hnil
      rw [argmaxSel, hxs] at h
      simp at h
      subst h
      simp
    | some c =>
      rw [argmaxSel, hxs] at h
      by_cases hgt : f x < f c
      · simp [hgt] at h
        subst h
        intro z hz
        rcases List.mem_cons.mp hz with rfl | hz'
        · exact le_of_lt hgt
        · exact ih hxs z hz'
      · simp [hgt] at h
        subst h
        intro z hz
        rcases List.mem_cons.mp hz with rfl | hz'
        · exact le_refl _
        · exact le_trans (ih hxs z hz') (not_lt.mp hgt)

theorem argminSel_le {f : ℕ → ℚ} {l : List ℕ} {b : ℕ}
    (h : argminSel f l = some b) : ∀ x ∈ l, f b ≤ f x := by
  induction l generalizing b with
  | nil => simp [argminSel] at h
  | cons x xs ih =>
    cases hxs : argminSel f xs with
    | none =>
      have hnil : xs = [] := argminSel_eq_none.mp hxs
      subst hnil
      rw [argminSel, hxs] at h
      simp at h
      subst h
      simp
    | some c =>
      rw [argminSel, hxs] at h
      by_cases hlt : f c < f x
      · simp [hlt] at h
        subst h
        intro z hz
        rcases List.mem_cons.mp hz with rfl | hz'
        · exact le_of_lt hlt
        · exact ih hxs z hz'
      · simp [hlt] at h
        subst h
        intro z hz
        rcases List.mem_cons.mp hz with rfl | hz'
        · exact le_refl _
        · exact le_trans (not_lt.mp hlt) (ih hxs z hz')

theorem argmaxSel_first {f : ℕ → ℚ} {l : List ℕ} {b : ℕ}
    (hp : l.Pairwise (· < ·)) (h : argmaxSel f l = some b) :
    ∀ x ∈ l, f x = f b → b ≤ x := by
  induction l with
  | nil => simp [argmaxSel] at h
  | cons x xs ih =>
    rw [List.pairwise_cons] at hp
    obtain ⟨hx, hxs_p⟩ := hp
    cases hxs : argmaxSel f xs with
    | none =>
      have hnil : xs = [] := argmaxSel_eq_none.mp hxs
      subst hnil
      rw [argmaxSel, hxs] at h
      simp at h
      subst h
      intro z hz _
      simp at hz
      omega
    | some c =>
      rw [argmaxSel, hxs] at h
      simp only [gt_iff_lt] at h
      by_cases hgt : f x < f c
      · rw [if_pos hgt] at h
        simp at h
        subst h
        intro z hz hfz
        rcases List.mem_cons.mp hz with rfl | hz'
        · exact absurd hfz (ne_of_lt hgt)
        · exact ih hxs_p hxs z hz' hfz
      · rw [if_neg hgt] at h
        simp at h
        subst h
        intro z hz _
        rcases List.mem_cons.mp hz with rfl | hz'
        · exact le_refl _
        · exact le_of_lt (hx z hz')

theorem argminSel_first {f : ℕ → ℚ} {l : List ℕ} {b : ℕ}
    (hp : l.Pairwise (· < ·)) (h : argminSel f l = some b) :
    ∀ x ∈ l, f x = f b → b ≤ x := by
  induction l with
  | nil => simp [argminSel] at h
  | cons x xs ih =>
    rw [List.pairwise_cons] at hp
    obtain ⟨hx, hxs_p⟩ := hp
    cases hxs : argminSel f xs with
    | none =>
      have hnil : xs = [] := argminSel_eq_none.mp hxs
      subst hnil
      rw [argminSel, hxs] at h
      simp at h
      subst h
      intro z hz _
      simp at hz
      omega
    | some c =>
      rw [argminSel, hxs] at h
      by_cases hlt : f c < f x
      · simp [hlt] at h
        subst h
        intro z hz hfz
        rcases List.mem_cons.mp hz with rfl | hz'
        · exact absurd hfz (ne_of_gt hlt)
        · exact ih hxs_p hxs z hz' hfz
      · simp [hlt] at h
        subst h
        intro z hz _
        rcases List.mem_cons.mp hz with rfl | hz'
        · exact le_refl _
        · exact le_of_lt (hx z hz')

end SelectorLemmas

section OptMapLemmas

theorem optMapT_mem {f : ℕ → Option Triplet} {l : List ℕ}
    {ts : List Triplet} {t : Triplet} (h : optMapT f l = some ts)
    (ht : t ∈ ts) : ∃ a ∈ l, f a = some t := by
  induction l generalizing ts with
  | nil =>
    simp [optMapT] at h
    subst h
    simp at ht
  | cons x xs ih =>
    rw [optMapT] at h
    cases hx : f x with
    | none => rw [hx] at h; simp at h
    | some u =>
      rw [hx] at h
      cases hxs : optMapT f xs with
      | none => rw [hxs] at h; simp at h
      | some us =>
        rw [hxs] at h
        simp at h
        subst h
        rcases List.mem_cons.mp ht with rfl | ht'
        · exact ⟨x, List.mem_cons_self x xs, hx⟩
        · obtain ⟨a, ha, hfa⟩ := ih hxs ht'
          exact ⟨a, List.mem_cons_of_mem x ha, hfa⟩

theorem optMapT_map {f : ℕ → Option Triplet} {l : List ℕ}
    (h : ∀ a ∈ l, (f a).isSome) :
    optMapT f l = some (l.map (fun a => (f a).getD (0, 0, 0))) := by
  induction l with
  | nil => simp [optMapT]
  | cons x xs ih =>
    obtain ⟨u, hu⟩ := Option.isSome_iff_exists.mp (h x (List.mem_cons_self x xs))
    rw [optMapT, hu, ih (fun a ha => h a (List.mem_cons_of_mem x ha))]
    simp [hu]

theorem optMapT_none {f : ℕ → Option Triplet} {l : List ℕ} {a : ℕ}
    (ha : a ∈ l) (hfa : f a = none) : optMapT f l = none := by
  induction l with
  | nil => simp at ha
  | cons x xs ih =>
    rw [optMapT]
    rcases List.mem_cons.mp ha with rfl | ha'
    · rw [hfa]
    · rw [ih ha']
      cases f x <;> rfl

theorem optMap_mem {f : ℕ → Option (List Triplet)} {l : List ℕ}
    {ts : List Triplet} {t : Triplet} (h : optMap f l = some ts)
    (ht : t ∈ ts) : ∃ a ∈ l, ∃ u, f a = some u ∧ t ∈ u := by
  induction l generalizing ts with
  | nil =>
    simp [optMap] at h
    subst h
    simp at ht
  | cons x xs ih =>
    rw [optMap] at h
    cases hx : f x with
    | none => rw [hx] at h; simp at h
    | some u =>
      rw [hx] at h
      cases hxs : optMap f xs with
      | none => rw [hxs] at h; simp at h
      | some us =>
        rw [hxs] at h
        simp at h
        subst h
        rcases List.mem_append.mp ht with ht' | ht'
        · exact ⟨x, List.mem_cons_self x xs, u, hx, ht'⟩
        · obtain ⟨a, ha, v, hfa, htv⟩ := ih hxs ht'
          exact ⟨a, List.mem_cons_of_mem x ha, v, hfa, htv⟩

theorem optMap_flatMap {f : ℕ → Option (List Triplet)} {l : List ℕ}
    (h : ∀ a ∈ l, (f a).isSome) :
    optMap f l = some (l.flatMap (fun a => (f a).getD [])) := by
  induction l with
  | nil => simp [optMap]
  | cons x xs ih =>
    obtain ⟨u, hu⟩ := Option.isSome_iff_exists.mp (h x (List.mem_cons_self x xs))
    rw [optMap, hu, ih (fun a ha => h a (List.mem_cons_of_mem x ha))]
    simp [hu]

theorem optMap_none {f : ℕ → Option (List Triplet)} {l : List ℕ} {a : ℕ}
    (ha : a ∈ l) (hfa : f a = none) : optMap f l = none := by
  induction l with
  | nil => simp at ha
  | cons x xs ih =>
    rw [optMap]
    rcases List.mem_cons.mp ha with rfl | ha'
    · rw [hfa]
    · rw [ih ha']
      cases f x <;> rfl

end OptMapLemmas

section MembershipLemmas

theorem mem_batch_all {y : List ℕ} {distances : List ℚ} {a p q : ℕ} :
    (a, p, q) ∈ batch_all y distances ↔
      a < y.length ∧ p < y.length ∧ q < y.length ∧ a ≠ p ∧
      y.getD a 0 = y.getD p 0 ∧ y.getD q 0 ≠ y.getD a 0 := by
  simp only [batch_all, List.mem_flatMap, List.mem_range]
  constructor
  · rintro ⟨a', ha', p', hp', hin⟩
    by_cases hc : a' = p' ∨ y.getD a' 0 ≠ y.getD p' 0
    · rw [if_pos hc] at hin
      simp at hin
    · rw [if_neg hc] at hin
      push_neg at hc
      simp only [List.mem_flatMap, List.mem_range] at hin
      obtain ⟨q', hq', hin2⟩ := hin
      by_cases hc2 : y.getD q' 0 = y.getD a' 0
      · rw [if_pos hc2] at hin2
        simp at hin2
      · rw [if_neg hc2] at hin2
        simp at hin2
        obtain ⟨rfl, rfl, rfl⟩ := hin2
        exact ⟨ha', hp', hq', hc.1, hc.2, hc2⟩
  · rintro ⟨ha, hp, hq, hne, hlab, hneg⟩
    refine ⟨a, ha, p, hp, ?_⟩
    rw [if_neg (by push_neg; exact ⟨hne, hlab⟩)]
    simp only [List.mem_flatMap, List.mem_range]
    refine ⟨q, hq, ?_⟩
    rw [if_neg hneg]
    simp

theorem mem_batch_easy {y : List ℕ} {distances : List ℚ} {a p q : ℕ} :
    (a, p, q) ∈ batch_easy y distances ↔
      a < y.length ∧ p < y.length ∧ q < y.length ∧ a ≠ p ∧
      y.getD a 0 = y.getD p 0 ∧ y.getD q 0 ≠ y.getD a 0 ∧
      squareform y.length distances a p ≤ squareform y.length distances a q := by
  simp only [batch_easy, List.mem_flatMap, List.mem_range]
  constructor
  · rintro ⟨a', ha', p', hp', hin⟩
    by_cases hc : a' = p' ∨ y.getD a' 0 ≠ y.getD p' 0
    · rw [if_pos hc] at hin
      simp at hin
    · rw [if_neg hc] at hin
      push_neg at hc
      simp only [List.mem_flatMap, List.mem_range] at hin
      obtain ⟨q', hq', hin2⟩ := hin
      by_cases hc2 : y.getD q' 0 = y.getD a' 0
      · rw [if_pos hc2] at hin2
        simp at hin2
      · rw [if_neg hc2] at hin2
        by_cases hc3 : squareform y.length distances a' p' >
            squareform y.length distances a' q'
        · rw [if_pos hc3] at hin2
          simp at hin2
        · rw [if_neg hc3] at hin2
          simp at hin2
          obtain ⟨rfl, rfl, rfl⟩ := hin2
          exact ⟨ha', hp', hq', hc.1, hc.2, hc2, not_lt.mp hc3⟩
  · rintro ⟨ha, hp, hq, hne, hlab, hneg, hd⟩
    refine ⟨a, ha, p, hp, ?_⟩
    rw [if_neg (by push_neg; exact ⟨hne, hlab⟩)]
    simp only [List.mem_flatMap, List.mem_range]
    refine ⟨q, hq, ?_⟩
    rw [if_neg hneg, if_neg (not_lt.mpr hd)]
    simp

theorem mem_pos_candidates {y : List ℕ} {anchor p : ℕ} :
    p ∈ pos_candidates y anchor ↔
      p < y.length ∧ p ≠ anchor ∧ y.getD p 0 = y.getD anchor 0 := by
  simp only [pos_candidates, List.mem_filter, List.mem_range,
    decide_eq_true_eq]
  tauto

theorem mem_neg_candidates {y : List ℕ} {anchor q : ℕ} :
    q ∈ neg_candidates y anchor ↔
      q < y.length ∧ y.getD q 0 ≠ y.getD anchor 0 := by
  simp only [neg_candidates, List.mem_filter, List.mem_range,
    decide_eq_true_eq]

theorem pairwise_pos_candidates (y : List ℕ) (anchor : ℕ) :
    (pos_candidates y anchor).Pairwise (· < ·) :=
  ((List.pairwise_lt_range y.length).filter _).filter _

theorem pairwise_neg_candidates (y : List ℕ) (anchor : ℕ) :
    (neg_candidates y anchor).Pairwise (· < ·) :=
  (List.pairwise_lt_range y.length).filter _

theorem hard_anchor_eq_some {y : List ℕ} {distances : List ℚ}
    {anchor : ℕ} {t : Triplet} :
    hard_anchor y distances anchor = some t ↔
      ∃ pv nv,
        argmaxSel (squareform y.length distances anchor)
          (pos_candidates y anchor) = some pv ∧
        argminSel (squareform y.length distances anchor)
          (neg_candidates y anchor) = some nv ∧
        t = (anchor, pv, nv) := by
  simp only [hard_anchor]
  cases hmax : argmaxSel (squareform y.length distances anchor)
      (pos_candidates y anchor) with
  | none =>
    cases hmin : argminSel (squareform y.length distances anchor)
        (neg_candidates y anchor) <;> simp
  | some pv =>
    cases hmin : argminSel (squareform y.length distances anchor)
        (neg_candidates y anchor) with
    | none => simp
    | some nv =>
      simp only [Option.some.injEq]
      constructor
      · intro h
        exact ⟨pv, nv, rfl, rfl, h.symm⟩
      · rintro ⟨pv2, nv2, h1, h2, rfl⟩
        rw [h1, h2]

theorem negative_anchor_eq_some {y : List ℕ} {distances : List ℚ}
    {anchor : ℕ} {u : List Triplet} :
    negative_anchor y distances anchor = some u ↔
      ∃ nv,
        argminSel (squareform y.length distances anchor)
          (neg_candidates y anchor) = some nv ∧
        u = ((List.range y.length).filter
            (fun p => decide (y.getD p 0 = y.getD anchor 0))).flatMap
          (fun positive =>
            if positive = anchor then [] else [(anchor, positive, nv)]) := by
  simp only [negative_anchor]
  cases hmin : argminSel (squareform y.length distances anchor)
      (neg_candidates y anchor) with
  | none => simp
  | some nv =>
    simp only [Option.some.injEq]
    constructor
    · intro h
      exact ⟨nv, rfl, h.symm⟩
    · rintro ⟨nv2, h1, rfl⟩
      rw [h1]

theorem filter_flatMap_eq {α : Type} (l : List ℕ) (P : ℕ → Prop)
    [DecidablePred P] (g : ℕ → List α) :
    (l.filter (fun x => decide (P x))).flatMap g =
      l.flatMap (fun x => if P x then g x else []) := by
  induction l with
  | nil => rfl
  | cons x xs ih =>
    by_cases hx : P x
    · simp [hx, ih]
    · simp [hx, ih]

theorem filter_map_eq {α : Type} (l : List ℕ) (P : ℕ → Prop)
    [DecidablePred P] (g : ℕ → α) :
    (l.filter (fun x => decide (P x))).map g =
      l.flatMap (fun x => if P x then [g x] else []) := by
  induction l with
  | nil => rfl
  | cons x xs ih =>
    by_cases hx : P x
    · simp [hx, ih]
    · simp [hx, ih]

theorem hardestNegative_unique {y : List ℕ} {distances : List ℚ}
    {a q q2 : ℕ} (h1 : hardestNegative y distances a q)
    (h2 : hardestNegative y distances a q2) : q = q2 := by
  obtain ⟨hq, hqlab, hqmin, hqtie⟩ := h1
  obtain ⟨hq2, hq2lab, hq2min, hq2tie⟩ := h2
  have e1 : squareform y.length distances a q ≤
      squareform y.length distances a q2 := hqmin q2 hq2 hq2lab
  have e2 : squareform y.length distances a q2 ≤
      squareform y.length distances a q := hq2min q hq hqlab
  have heq : squareform y.length distances a q2 =
      squareform y.length distances a q := le_antisymm e2 e1
  exact le_antisymm (hqtie q2 hq2 hq2lab heq) (hq2tie q hq hqlab heq.symm)

end MembershipLemmas

section Claims

/-- C10: for every `n ≥ 2`, reconstructing the batch size from the
length `m = n*(n-1)/2` of the condensed distance vector via
`int(.5 * (1 + sqrt(1 + 8*m)))` (line 289, modelled exactly by
`estimate_n`) returns exactly `n`, so the condensed offsets computed for
the triplet index pairs refer to the correct batch size. -/
theorem estimate_n_reconstructs (n : ℕ) (hn : 2 ≤ n) :
    estimate_n (n * (n - 1) / 2) = n := by
  obtain ⟨m, rfl⟩ : ∃ m, n = m + 1 := ⟨n - 1, by omega⟩
  have hmul : (m + 1) * ((m + 1) - 1) = m * (m + 1) := by
    simp [Nat.mul_comm]
  obtain ⟨k, hk⟩ := Nat.even_mul_succ_self m
  have hsq : 1 + 8 * ((m + 1) * ((m + 1) - 1) / 2) =
      (2 * m + 1) * (2 * m + 1) := by
    rw [hmul, hk]
    have h2 : (k + k) / 2 = k := by omega
    rw [h2]
    have h3 : (2 * m + 1) * (2 * m + 1) = 4 * (m * (m + 1)) + 1 := by ring
    rw [h3, hk]
    omega
  unfold estimate_n
  rw [hsq, Nat.sqrt_eq]
  omega

/-- Witness for C10 at the concrete batch size 4. -/
theorem estimate_n_reconstructs_witness :
    2 ≤ 4 ∧ estimate_n (4 * (4 - 1) / 2) = 4 :=
  ⟨by decide, estimate_n_reconstructs 4 (by decide)⟩

/-- C1: every successfully constructed `TripletLoss` object has its
three configuration strings inside their allowed sets
(`metric ∈ {euclidean, cosine, angular}`,
`clamp ∈ {positive, sigmoid, softmargin}`,
`sampling ∈ {all, hard, negative, easy}`); equivalently, an invalid
string makes `__init__` raise, leaving no usable object (`none`). -/
theorem init_configuration_validated (metric : String) (margin : ℚ)
    (clamp sampling : String) (cfg : TripletLoss)
    (h : TripletLoss.init metric margin clamp sampling = some cfg) :
    (cfg.metric = "euclidean" ∨ cfg.metric = "cosine" ∨
      cfg.metric = "angular") ∧
    (cfg.clamp = "positive" ∨ cfg.clamp = "sigmoid" ∨
      cfg.clamp = "softmargin") ∧
    (cfg.sampling = "all" ∨ cfg.sampling = "hard" ∨
      cfg.sampling = "negative" ∨ cfg.sampling = "easy") := by
  unfold TripletLoss.init at h
  rw [Option.bind_eq_some] at h
  obtain ⟨D, hD, h⟩ := h
  by_cases hc : clamp = "positive" ∨ clamp = "sigmoid" ∨
      clamp = "softmargin"
  · rw [if_pos hc] at h
    by_cases hs : sampling = "all" ∨ sampling = "hard" ∨
        sampling = "negative" ∨ sampling = "easy"
    · rw [if_pos hs] at h
      simp at h
      subst h
      refine ⟨?_, hc, hs⟩
      unfold max_distance at hD
      by_cases h1 : metric = "euclidean"
      · exact Or.inl h1
      · rw [if_neg h1] at hD
        by_cases h2 : metric = "cosine"
        · exact Or.inr (Or.inl h2)
        · rw [if_neg h2] at hD
          by_cases h3 : metric = "angular"
          · exact Or.inr (Or.inr h3)
          · rw [if_neg h3] at hD
            simp at hD
    · rw [if_neg hs] at h
      simp at h
  · rw [if_neg hc] at h
    simp at h

/-- A concretely constructed configuration used by witnesses. -/
def cfg_example : TripletLoss :=
  ⟨"cosine", 1/5, 2/5, "positive", "all"⟩

/-- Witness for C1 at a concrete successful construction. -/
theorem init_configuration_validated_witness :
    (cfg_example.metric = "euclidean" ∨ cfg_example.metric = "cosine" ∨
      cfg_example.metric = "angular") ∧
    (cfg_example.clamp = "positive" ∨ cfg_example.clamp = "sigmoid" ∨
      cfg_example.clamp = "softmargin") ∧
    (cfg_example.sampling = "all" ∨ cfg_example.sampling = "hard" ∨
      cfg_example.sampling = "negative" ∨ cfg_example.sampling = "easy") :=
  init_configuration_validated "cosine" (1/5) "positive" "all" cfg_example
    (by unfold TripletLoss.init max_distance cfg_example; norm_num)

/-- C2 counterexample: on the all-same-label batch `y = [0, 0]` (with
the single condensed distance `1/2`), the `hard` and `negative` policies
do raise (`np.argmin` over an empty different-label candidate array)
instead of returning three empty index lists; and on `y = [0, 1, 1]`,
where anchor 0 has a different-label example but no same-label partner,
the `hard` policy raises as well (`np.argmax` over an empty same-label
candidate array) instead of silently skipping that anchor. -/
theorem degenerate_batch_counterexample :
    batch_hard [0, 0] [1/2] = none ∧ batch_negative [0, 0] [1/2] = none ∧
    batch_hard [0, 1, 1] [1, 1, 1] = none := by
  refine ⟨by decide, by decide, by decide⟩

/-- C2 amended: under `all` and `easy` (which never raise), an anchor
with no same-label partner or no different-label example contributes
zero triplets, and an all-same-label batch yields empty index lists;
but under `hard` and `negative` a nonempty all-same-label batch raises
(no different-label candidate for `np.argmin`), and `hard` also raises
when some anchor has no same-label partner (no candidate for
`np.argmax`). -/
theorem degenerate_batch_amended :
    (∀ (y : List ℕ) (distances : List ℚ),
      (∀ u ∈ y, ∀ v ∈ y, u = v) →
      batch_all y distances = [] ∧ batch_easy y distances = []) ∧
    (∀ (y : List ℕ) (distances : List ℚ) (a p q : ℕ),
      (a, p, q) ∈ batch_all y distances ∨ (a, p, q) ∈ batch_easy y distances →
      (∃ p', p' < y.length ∧ p' ≠ a ∧ y.getD p' 0 = y.getD a 0) ∧
      (∃ q', q' < y.length ∧ y.getD q' 0 ≠ y.getD a 0)) ∧
    (∀ (y : List ℕ) (distances : List ℚ),
      y ≠ [] → (∀ u ∈ y, ∀ v ∈ y, u = v) →
      batch_hard y distances = none ∧ batch_negative y distances = none) ∧
    (∀ (y : List ℕ) (distances : List ℚ) (a : ℕ),
      a < y.length →
      (∀ p, p < y.length → p ≠ a → y.getD p 0 ≠ y.getD a 0) →
      batch_hard y distances = none) := by
  have hconst_labels : ∀ (y : List ℕ), (∀ u ∈ y, ∀ v ∈ y, u = v) →
      ∀ i j : ℕ, i < y.length → j < y.length → y.getD i 0 = y.getD j 0 := by
    intro y hc i j hi hj
    rw [List.getD_eq_getElem y 0 hi, List.getD_eq_getElem y 0 hj]
    exact hc _ (List.getElem_mem hi) _ (List.getElem_mem hj)
  refine ⟨?_, ?_, ?_, ?_⟩
  · intro y distances hc
    constructor
    · refine List.eq_nil_iff_forall_not_mem.mpr ?_
      rintro ⟨a, p, q⟩ hmem
      obtain ⟨ha, hp, hq, _, _, hne⟩ := mem_batch_all.mp hmem
      exact hne (hconst_labels y hc q a hq ha)
    · refine List.eq_nil_iff_forall_not_mem.mpr ?_
      rintro ⟨a, p, q⟩ hmem
      obtain ⟨ha, hp, hq, _, _, hne, _⟩ := mem_batch_easy.mp hmem
      exact hne (hconst_labels y hc q a hq ha)
  · intro y distances a p q hmem
    rcases hmem with hmem | hmem
    · obtain ⟨ha, hp, hq, hnep, hlab, hne⟩ := mem_batch_all.mp hmem
      exact ⟨⟨p, hp, Ne.symm hnep, hlab.symm⟩, ⟨q, hq, hne⟩⟩
    · obtain ⟨ha, hp, hq, hnep, hlab, hne, _⟩ := mem_batch_easy.mp hmem
      exact ⟨⟨p, hp, Ne.symm hnep, hlab.symm⟩, ⟨q, hq, hne⟩⟩
  · intro y distances hne hc
    have h0 : 0 ∈ List.range y.length := by
      simp only [List.mem_range]
      exact List.length_pos.mpr hne
    have hnegnil : neg_candidates y 0 = [] := by
      unfold neg_candidates
      rw [List.filter_eq_nil_iff]
      intro q hq
      simp only [decide_eq_true_eq, not_not]
      exact hconst_labels y hc q 0 (List.mem_range.mp hq)
        (List.length_pos.mpr hne)
    constructor
    · refine optMapT_none h0 ?_
      unfold hard_anchor
      rw [hnegnil]
      cases argmaxSel (squareform y.length distances 0) (pos_candidates y 0) <;>
        simp [argminSel]
    · refine optMap_none h0 ?_
      unfold negative_anchor
      rw [hnegnil]
      simp [argminSel]
  · intro y distances a ha hnopartner
    have hamem : a ∈ List.range y.length := List.mem_range.mpr ha
    have hposnil : pos_candidates y a = [] := by
      unfold pos_candidates
      rw [List.filter_eq_nil_iff]
      intro p hp
      simp only [decide_eq_true_eq]
      obtain ⟨hpr, hplab⟩ := List.mem_filter.mp hp
      simp only [decide_eq_true_eq] at hplab
      intro hpa
      exact hnopartner p (List.mem_range.mp hpr) hpa hplab
    refine optMapT_none hamem ?_
    unfold hard_anchor
    rw [hposnil]
    cases argminSel (squareform y.length distances a) (neg_candidates y a) <;>
      simp [argmaxSel]

/-- Witness for C2 amended, at the concrete all-same-label batch
`[0, 0]`. -/
theorem degenerate_batch_amended_witness :
    batch_all [0, 0] [1/2] = [] ∧ batch_easy [0, 0] [1/2] = [] :=
  degenerate_batch_amended.1 [0, 0] [1/2] (by decide)

/-- C3: every triplet emitted by any of the four sampling policies
satisfies the triplet invariant `label[anchor] == label[positive]`,
`label[anchor] != label[negative]`, `anchor != positive` (for `hard` and
`negative`, under the precondition that the call returned normally). -/
theorem triplet_invariant_all_policies :
    (∀ (y : List ℕ) (distances : List ℚ) (a p q : ℕ),
      (a, p, q) ∈ batch_all y distances →
      y.getD a 0 = y.getD p 0 ∧ y.getD a 0 ≠ y.getD q 0 ∧ a ≠ p) ∧
    (∀ (y : List ℕ) (distances : List ℚ) (a p q : ℕ),
      (a, p, q) ∈ batch_easy y distances →
      y.getD a 0 = y.getD p 0 ∧ y.getD a 0 ≠ y.getD q 0 ∧ a ≠ p) ∧
    (∀ (y : List ℕ) (distances : List ℚ) (ts : List Triplet) (a p q : ℕ),
      batch_hard y distances = some ts → (a, p, q) ∈ ts →
      y.getD a 0 = y.getD p 0 ∧ y.getD a 0 ≠ y.getD q 0 ∧ a ≠ p) ∧
    (∀ (y : List ℕ) (distances : List ℚ) (ts : List Triplet) (a p q : ℕ),
      batch_negative y distances = some ts → (a, p, q) ∈ ts →
      y.getD a 0 = y.getD p 0 ∧ y.getD a 0 ≠ y.getD q 0 ∧ a ≠ p) := by
  refine ⟨?_, ?_, ?_, ?_⟩
  · intro y distances a p q hmem
    obtain ⟨_, _, _, hnep, hlab, hne⟩ := mem_batch_all.mp hmem
    exact ⟨hlab, Ne.symm hne, hnep⟩
  · intro y distances a p q hmem
    obtain ⟨_, _, _, hnep, hlab, hne, _⟩ := mem_batch_easy.mp hmem
    exact ⟨hlab, Ne.symm hne, hnep⟩
  · intro y distances ts a p q hts hmem
    obtain ⟨a', _, hfa⟩ := optMapT_mem hts hmem
    obtain ⟨pv, nv, hmax, hmin, heq⟩ := hard_anchor_eq_some.mp hfa
    obtain ⟨rfl, rfl, rfl⟩ := Prod.mk.injEq .. ▸ heq
    obtain ⟨_, hpne, hplab⟩ :=
      mem_pos_candidates.mp (argmaxSel_mem hmax)
    obtain ⟨_, hqlab⟩ := mem_neg_candidates.mp (argminSel_mem hmin)
    exact ⟨hplab.symm, fun hcontra => hqlab hcontra.symm, Ne.symm hpne⟩
  · intro y distances ts a p q hts hmem
    obtain ⟨a', _, u, hfa, htu⟩ := optMap_mem hts hmem
    obtain ⟨nv, hmin, rfl⟩ := negative_anchor_eq_some.mp hfa
    obtain ⟨pv, hpv, hin⟩ := List.mem_flatMap.mp htu
    by_cases hpa : pv = a'
    · rw [if_pos hpa] at hin
      simp at hin
    · rw [if_neg hpa] at hin
      simp at hin
      obtain ⟨rfl, rfl, rfl⟩ := hin
      obtain ⟨_, hplab⟩ := (List.mem_filter.mp hpv)
      simp only [decide_eq_true_eq] at hplab
      obtain ⟨_, hqlab⟩ := mem_neg_candidates.mp (argminSel_mem hmin)
      exact ⟨hplab.symm, fun hcontra => hqlab hcontra.symm, Ne.symm hpa⟩

/-- Witness for C3, checking the invariant on a concrete triplet of the
`all` policy. -/
theorem triplet_invariant_all_policies_witness :
    y_scenario.getD 0 0 = y_scenario.getD 1 0 ∧
    y_scenario.getD 0 0 ≠ y_scenario.getD 2 0 ∧ (0 : ℕ) ≠ 1 :=
  triplet_invariant_all_policies.1 y_scenario d_scenario 0 1 2 (by decide)

/-- C4: the `all` policy emits one triplet per (same-label positive,
different-label negative) combination in anchor-major, then positive,
then negative enumeration order (it equals the spec-side enumeration
`batch_all_spec`), and on the concrete batch `y = [A, A, B, B]` it
returns exactly the eight spec triplets in order. -/
theorem batch_all_enumeration :
    (∀ (y : List ℕ) (distances : List ℚ),
      batch_all y distances = batch_all_spec y) ∧
    batch_all y_scenario d_scenario =
      [(0, 1, 2), (0, 1, 3), (1, 0, 2), (1, 0, 3),
       (2, 3, 0), (2, 3, 1), (3, 2, 0), (3, 2, 1)] := by
  constructor
  · intro y distances
    unfold batch_all batch_all_spec
    apply List.flatMap_congr
    intro a _
    rw [filter_flatMap_eq]
    apply List.flatMap_congr
    intro p _
    by_cases hc : a = p ∨ y.getD a 0 ≠ y.getD p 0
    · rw [if_pos hc, if_neg ?_]
      intro hcontra
      rcases hc with hc | hc
      · exact hcontra.2 hc
      · exact hc hcontra.1
    · rw [if_neg hc]
      push_neg at hc
      rw [if_pos ⟨hc.2, hc.1⟩]
      rw [filter_map_eq]
      apply List.flatMap_congr
      intro q _
      by_cases hq : y.getD q 0 = y.getD a 0
      · rw [if_pos hq, if_neg (not_not_intro hq)]
      · rw [if_neg hq, if_pos hq]
  · decide

/-- C7: the `easy` policy emits `(a, p, q)` exactly when the labels
match the triplet invariant and `d(a, p) ≤ d(a, q)` (equality of the
two distances admitted), and on the spec's concrete batch anchor 0 with
positive 1 yields both negatives 2 and 3. -/
theorem batch_easy_characterization :
    (∀ (y : List ℕ) (distances : List ℚ) (a p q : ℕ),
      (a, p, q) ∈ batch_easy y distances ↔
        a < y.length ∧ p < y.length ∧ q < y.length ∧
        y.getD a 0 = y.getD p 0 ∧ a ≠ p ∧ y.getD q 0 ≠ y.getD a 0 ∧
        squareform y.length distances a p ≤
          squareform y.length distances a q) ∧
    ((0, 1, 2) ∈ batch_easy y_scenario d_scenario ∧
      (0, 1, 3) ∈ batch_easy y_scenario d_scenario) := by
  have hchar : ∀ (y : List ℕ) (distances : List ℚ) (a p q : ℕ),
      (a, p, q) ∈ batch_easy y distances ↔
        a < y.length ∧ p < y.length ∧ q < y.length ∧
        y.getD a 0 = y.getD p 0 ∧ a ≠ p ∧ y.getD q 0 ≠ y.getD a 0 ∧
        squareform y.length distances a p ≤
          squareform y.length distances a q := by
    intro y distances a p q
    rw [mem_batch_easy]
    tauto
  refine ⟨hchar, ?_, ?_⟩
  · rw [hchar]
    refine ⟨by decide, by decide, by decide, by decide, by decide, by decide, ?_⟩
    show squareform 4 d_scenario 0 1 ≤ squareform 4 d_scenario 0 2
    unfold squareform to_condensed d_scenario
    norm_num
  · rw [hchar]
    refine ⟨by decide, by decide, by decide, by decide, by decide, by decide, ?_⟩
    show squareform 4 d_scenario 0 1 ≤ squareform 4 d_scenario 0 3
    unfold squareform to_condensed d_scenario
    norm_num

/-- C5: under the precondition that every anchor has at least one
same-label partner and one different-label example, the `hard` policy
emits exactly one triplet per anchor, whose positive is the same-label
index (excluding the anchor) at maximum distance and whose negative is
the different-label index at minimum distance, the first occurrence in
enumeration order being chosen deterministically on ties. -/
theorem batch_hard_spec (y : List ℕ) (distances : List ℚ)
    (hpos : ∀ a, a < y.length →
      ∃ p, p < y.length ∧ p ≠ a ∧ y.getD p 0 = y.getD a 0)
    (hneg : ∀ a, a < y.length →
      ∃ q, q < y.length ∧ y.getD q 0 ≠ y.getD a 0) :
    ∃ ts, batch_hard y distances = some ts ∧ ts.length = y.length ∧
      ∀ i, ∀ hi : i < ts.length,
        (ts.get ⟨i, hi⟩).1 = i ∧
        hardestPositive y distances i (ts.get ⟨i, hi⟩).2.1 ∧
        hardestNegative y distances i (ts.get ⟨i, hi⟩).2.2 := by
  have hanchor : ∀ a, a < y.length →
      ∃ pv nv, hard_anchor y distances a = some (a, pv, nv) ∧
        argmaxSel (squareform y.length distances a)
          (pos_candidates y a) = some pv ∧
        argminSel (squareform y.length distances a)
          (neg_candidates y a) = some nv := by
    intro a ha
    obtain ⟨p, hp, hpne, hplab⟩ := hpos a ha
    obtain ⟨q, hq, hqlab⟩ := hneg a ha
    have hpne_nil : pos_candidates y a ≠ [] :=
      List.ne_nil_of_mem (mem_pos_candidates.mpr ⟨hp, hpne, hplab⟩)
    have hqne_nil : neg_candidates y a ≠ [] :=
      List.ne_nil_of_mem (mem_neg_candidates.mpr ⟨hq, hqlab⟩)
    obtain ⟨pv, hpv⟩ := Option.ne_none_iff_exists.mp
      (fun hc => hpne_nil (argmaxSel_eq_none.mp hc))
    obtain ⟨nv, hnv⟩ := Option.ne_none_iff_exists.mp
      (fun hc => hqne_nil (argminSel_eq_none.mp hc))
    refine ⟨pv, nv, ?_, hpv.symm, hnv.symm⟩
    rw [hard_anchor_eq_some]
    exact ⟨pv, nv, hpv.symm, hnv.symm, rfl⟩
  have hsome : ∀ a ∈ List.range y.length,
      (hard_anchor y distances a).isSome := by
    intro a ha
    obtain ⟨pv, nv, hfa, _, _⟩ := hanchor a (List.mem_range.mp ha)
    rw [hfa]
    rfl
  refine ⟨_, optMapT_map hsome, by simp, ?_⟩
  intro i hi
  have hlen : i < y.length := by simpa using hi
  obtain ⟨pv, nv, hfa, hmax, hmin⟩ := hanchor i hlen
  have hgi : ((List.range y.length).map
      (fun a => (hard_anchor y distances a).getD (0, 0, 0))).get ⟨i, hi⟩ =
      (i, pv, nv) := by
    simp [List.get_eq_getElem, List.getElem_map, List.getElem_range, hfa]
  rw [hgi]
  refine ⟨rfl, ?_, ?_⟩
  · obtain ⟨hpvlt, hpvne, hpvlab⟩ :=
      mem_pos_candidates.mp (argmaxSel_mem hmax)
    refine ⟨hpvlt, hpvne, hpvlab, ?_, ?_⟩
    · intro r hr hrne hrlab
      exact argmaxSel_le hmax r (mem_pos_candidates.mpr ⟨hr, hrne, hrlab⟩)
    · intro r hr hrne hrlab hreq
      exact argmaxSel_first (pairwise_pos_candidates y i) hmax r
        (mem_pos_candidates.mpr ⟨hr, hrne, hrlab⟩) hreq
  · obtain ⟨hnvlt, hnvlab⟩ := mem_neg_candidates.mp (argminSel_mem hmin)
    refine ⟨hnvlt, hnvlab, ?_, ?_⟩
    · intro r hr hrlab
      exact argminSel_le hmin r (mem_neg_candidates.mpr ⟨hr, hrlab⟩)
    · intro r hr hrlab hreq
      exact argminSel_first (pairwise_neg_candidates y i) hmin r
        (mem_neg_candidates.mpr ⟨hr, hrlab⟩) hreq

/-- Witness for C5 at the spec's concrete scenario. -/
theorem batch_hard_spec_witness :
    ∃ ts, batch_hard y_scenario d_scenario = some ts ∧
      ts.length = y_scenario.length ∧
      ∀ i, ∀ hi : i < ts.length,
        (ts.get ⟨i, hi⟩).1 = i ∧
        hardestPositive y_scenario d_scenario i (ts.get ⟨i, hi⟩).2.1 ∧
        hardestNegative y_scenario d_scenario i (ts.get ⟨i, hi⟩).2.2 :=
  batch_hard_spec y_scenario d_scenario (by decide) (by decide)

/-- C6: under the precondition that every anchor has at least one
different-label example, the `negative` policy emits one triplet per
(anchor, same-label partner) pair, and the negative of every emitted
triplet is the different-label index at minimum distance from its
anchor (first occurrence on ties), identical across all triplets
sharing that anchor. -/
theorem batch_negative_spec (y : List ℕ) (distances : List ℚ)
    (hneg : ∀ a, a < y.length →
      ∃ q, q < y.length ∧ y.getD q 0 ≠ y.getD a 0) :
    ∃ ts, batch_negative y distances = some ts ∧
      ts.map (fun t => (t.1, t.2.1)) = anchorPositivePairs y ∧
      (∀ t ∈ ts, hardestNegative y distances t.1 t.2.2) ∧
      (∀ t ∈ ts, ∀ t2 ∈ ts, t.1 = t2.1 → t.2.2 = t2.2.2) := by
  have hanchor : ∀ a, a < y.length →
      ∃ nv, argminSel (squareform y.length distances a)
          (neg_candidates y a) = some nv ∧
        negative_anchor y distances a = some
          (((List.range y.length).filter
              (fun p => decide (y.getD p 0 = y.getD a 0))).flatMap
            (fun positive =>
              if positive = a then [] else [(a, positive, nv)])) := by
    intro a ha
    obtain ⟨q, hq, hqlab⟩ := hneg a ha
    have hqne_nil : neg_candidates y a ≠ [] :=
      List.ne_nil_of_mem (mem_neg_candidates.mpr ⟨hq, hqlab⟩)
    obtain ⟨nv, hnv⟩ := Option.ne_none_iff_exists.mp
      (fun hc => hqne_nil (argminSel_eq_none.mp hc))
    refine ⟨nv, hnv.symm, ?_⟩
    rw [negative_anchor_eq_some]
    exact ⟨nv, hnv.symm, rfl⟩
  have hsome : ∀ a ∈ List.range y.length,
      (negative_anchor y distances a).isSome := by
    intro a ha
    obtain ⟨nv, _, hfa⟩ := hanchor a (List.mem_range.mp ha)
    rw [hfa]
    rfl
  have hhard : ∀ t ∈ (List.range y.length).flatMap
      (fun a => (negative_anchor y distances a).getD []),
      hardestNegative y distances t.1 t.2.2 := by
    intro t ht
    obtain ⟨a, ha, htu⟩ := List.mem_flatMap.mp ht
    have halt : a < y.length := List.mem_range.mp ha
    obtain ⟨nv, hmin, hfa⟩ := hanchor a halt
    rw [hfa] at htu
    simp only [Option.getD_some] at htu
    obtain ⟨pv, hpv, hin⟩ := List.mem_flatMap.mp htu
    by_cases hpa : pv = a
    · rw [if_pos hpa] at hin
      simp at hin
    · rw [if_neg hpa] at hin
      simp at hin
      subst hin
      obtain ⟨hnvlt, hnvlab⟩ := mem_neg_candidates.mp (argminSel_mem hmin)
      refine ⟨hnvlt, hnvlab, ?_, ?_⟩
      · intro r hr hrlab
        exact argminSel_le hmin r (mem_neg_candidates.mpr ⟨hr, hrlab⟩)
      · intro r hr hrlab hreq
        exact argminSel_first (pairwise_neg_candidates y a) hmin r
          (mem_neg_candidates.mpr ⟨hr, hrlab⟩) hreq
  refine ⟨_, optMap_flatMap hsome, ?_, hhard, ?_⟩
  · rw [List.map_flatMap]
    unfold anchorPositivePairs
    apply List.flatMap_congr
    intro a ha
    have halt : a < y.length := List.mem_range.mp ha
    obtain ⟨nv, hmin, hfa⟩ := hanchor a halt
    rw [hfa]
    simp only [Option.getD_some]
    rw [List.map_flatMap, filter_map_eq, filter_flatMap_eq]
    apply List.flatMap_congr
    intro p hp
    by_cases hplab : y.getD p 0 = y.getD a 0
    · rw [if_pos hplab]
      by_cases hpa : p = a
      · rw [if_pos hpa, if_neg (fun hc => hc.2 hpa)]
        simp
      · rw [if_neg hpa, if_pos ⟨hplab, hpa⟩]
        simp
    · rw [if_neg hplab, if_neg (fun hc => hplab hc.1)]
  · intro t ht t2 ht2 heq1
    have u1 := hhard t ht
    have u2 := hhard t2 ht2
    rw [heq1] at u1
    exact hardestNegative_unique u1 u2

/-- Witness for C6 at the spec's concrete scenario. -/
theorem batch_negative_spec_witness :
    ∃ ts, batch_negative y_scenario d_scenario = some ts ∧
      ts.map (fun t => (t.1, t.2.1)) = anchorPositivePairs y_scenario ∧
      (∀ t ∈ ts, hardestNegative y_scenario d_scenario t.1 t.2.2) ∧
      (∀ t ∈ ts, ∀ t2 ∈ ts, t.1 = t2.1 → t.2.2 = t2.2.2) :=
  batch_negative_spec y_scenario d_scenario (by decide)

/-- The vectorized `triplet_loss` pipeline on the three parallel index
lists of a triplet list equals the per-triplet scalar loss mapped over
the triplets, for each of the three valid clamping modes. -/
theorem triplet_loss_eq_map (clamp : String) (margin_ : ℚ) (sm sg : ℚ → ℚ)
    (distances : List ℚ) (ts : List Triplet)
    (hc : clamp = "positive" ∨ clamp = "softmargin" ∨ clamp = "sigmoid") :
    triplet_loss clamp margin_ sm sg distances (ts.map (fun t => t.1))
      (ts.map (fun t => t.2.1)) (ts.map (fun t => t.2.2)) =
      ts.map (per_triplet_loss clamp margin_ sm sg distances) := by
  have hdelta : ∀ n : ℕ,
      List.zipWith (fun i j => distances.getD i 0 - distances.getD j 0)
        (List.zipWith (fun a p => to_condensed n a p)
          (ts.map (fun t => t.1)) (ts.map (fun t => t.2.1)))
        (List.zipWith (fun a q => to_condensed n a q)
          (ts.map (fun t => t.1)) (ts.map (fun t => t.2.2))) =
      ts.map (fun t =>
        distances.getD (to_condensed n t.1 t.2.1) 0 -
          distances.getD (to_condensed n t.1 t.2.2) 0) := by
    intro n
    induction ts with
    | nil => rfl
    | cons t rest ih =>
      simp only [List.map_cons, List.zipWith_cons_cons, ih]
  simp only [triplet_loss]
  rw [hdelta]
  rcases hc with hc | hc | hc <;> subst hc
  · rw [if_pos rfl, List.map_map]
    apply List.map_congr_left
    intro t ht
    simp [per_triplet_loss]
  · rw [if_neg (by decide), if_pos rfl, List.map_map]
    apply List.map_congr_left
    intro t ht
    simp [per_triplet_loss]
  · rw [if_neg (by decide), if_neg (by decide), if_pos rfl, List.map_map]
    apply List.map_congr_left
    intro t ht
    simp [per_triplet_loss]

/-- C8: for `positive` clamping, the margin stored at construction is
`margin * D` with `D` the metric's maximum distance, a triplet whose
delta satisfies `delta + margin <= 0` gets per-triplet loss exactly `0`,
and the per-triplet loss is monotone non-decreasing in delta for fixed
margin. -/
theorem positive_clamp_zero_and_monotone (metric : String) (margin D : ℚ)
    (sampling : String) (cfg : TripletLoss)
    (hinit : TripletLoss.init metric margin "positive" sampling = some cfg)
    (hD : max_distance metric = some D) :
    cfg.margin_ = margin * D ∧
    (∀ delta : ℚ, delta + cfg.margin_ ≤ 0 →
      clamp_positive cfg.margin_ delta = 0) ∧
    (∀ d1 d2 : ℚ, d1 ≤ d2 →
      clamp_positive cfg.margin_ d1 ≤ clamp_positive cfg.margin_ d2) := by
  have hm : cfg.margin_ = margin * D := by
    unfold TripletLoss.init at hinit
    rw [hD] at hinit
    simp only [Option.some_bind] at hinit
    rw [if_pos (Or.inl trivial)] at hinit
    by_cases hs : sampling = "all" ∨ sampling = "hard" ∨
        sampling = "negative" ∨ sampling = "easy"
    · rw [if_pos hs] at hinit
      simp at hinit
      rw [← hinit]
    · rw [if_neg hs] at hinit
      simp at hinit
  refine ⟨hm, ?_, ?_⟩
  · intro delta hd
    unfold clamp_positive
    exact max_eq_right hd
  · intro d1 d2 h12
    unfold clamp_positive
    exact max_le_max (add_le_add_right h12 _) le_rfl

/-- Witness for C8 at the cosine metric with margin factor 1/5. -/
theorem positive_clamp_zero_and_monotone_witness :
    cfg_example.margin_ = (1/5 : ℚ) * 2 ∧
    (∀ delta : ℚ, delta + cfg_example.margin_ ≤ 0 →
      clamp_positive cfg_example.margin_ delta = 0) ∧
    (∀ d1 d2 : ℚ, d1 ≤ d2 →
      clamp_positive cfg_example.margin_ d1 ≤
        clamp_positive cfg_example.margin_ d2) :=
  positive_clamp_zero_and_monotone "cosine" (1/5) 2 "all" cfg_example
    (by unfold TripletLoss.init max_distance cfg_example; norm_num)
    (by unfold max_distance; norm_num)

/-- C9: for every batch whose configured sampling policy yields at least
one triplet, `batch_loss` returns the arithmetic mean (sum divided by
count) of the per-triplet losses over all sampled triplets. -/
theorem batch_loss_mean (self : TripletLoss) (sm sg : ℚ → ℚ)
    (y : List ℕ) (distances : List ℚ) (ts : List Triplet)
    (hclamp : self.clamp = "positive" ∨ self.clamp = "softmargin" ∨
      self.clamp = "sigmoid")
    (hsample : sample self.sampling y distances = some ts)
    (hne : ts ≠ []) :
    batch_loss self sm sg y distances =
      some ((ts.map (per_triplet_loss self.clamp self.margin_ sm sg
        distances)).sum / (ts.length : ℚ)) := by
  have hlen : ts.length = (ts.map (per_triplet_loss self.clamp
      self.margin_ sm sg distances)).length := by
    simp
  simp only [batch_loss]
  rw [hsample]
  simp only [Option.map_some']
  rw [triplet_loss_eq_map self.clamp self.margin_ sm sg distances ts hclamp]
  rw [← hlen]

/-- Witness for C9 on the spec's concrete scenario with the `all`
policy and `positive` clamping. -/
theorem batch_loss_mean_witness :
    batch_loss cfg_example id id y_scenario d_scenario =
      some (((batch_all y_scenario d_scenario).map
        (per_triplet_loss cfg_example.clamp cfg_example.margin_ id id
          d_scenario)).sum /
        ((batch_all y_scenario d_scenario).length : ℚ)) :=
  batch_loss_mean cfg_example id id y_scenario d_scenario
    (batch_all y_scenario d_scenario) (Or.inl rfl) rfl (by decide)

end Claims

end PyannoteTriplet
